import Mathlib

/-!
Verification of the reservoir-computing analysis pipeline of
Heterogeneous_SNNs (snn_function_generation.py) together with the
command-line handling of the bifurcation scripts (bifurcation_rs.py,
bifurcation_fs.py).

Matrices handled by numpy are embedded in two ways, each faithful to the
corresponding section of the source:
 - the trial runner and stimulus generator (get_signals) work on
   row-major lists of lists of rationals, so that python slicing,
   truncation and shape behaviour can be modelled exactly;
 - the kernel estimation block works on Mathlib matrices over a field
   (rationals for the exact-arithmetic claims, reals for the spectral
   claim).
-/

open Matrix

/-! ## List-level numpy primitives -/

/-- Maximum entry of a one-dimensional array, as np.max computes it on a
non-empty array: a fold of max seeded with the first entry.  numpy raises
on an empty array; the empty case (returning 0) is never reached by the
claims, which all concern non-empty data. -/
def listMax : List ℚ → ℚ
  | [] => 0
  | x :: xs => xs.foldl max x

/-- Maximum entry of a two-dimensional array (np.max of the flattened
array). -/
def matMax (S : List (List ℚ)) : ℚ :=
  listMax S.flatten

/-- Embedding of mse (snn_function_generation.py, lines 58-61) applied to two
one-dimensional arrays of equal length: each argument is divided by its own
maximum and the mean of the squared differences is returned. -/
def listMse (x y : List ℚ) : ℚ :=
  let d := List.zipWith (fun a b => (a / listMax x - b / listMax y) ^ 2) x y
  d.sum / (d.length : ℚ)

/-- Embedding of mse (lines 58-61) as it is actually invoked at line 229:
the first argument is the target vector of length steps, the second the raw
test signal matrix of shape (channels, steps).  squeeze leaves both
unchanged (for more than one channel), each is divided by its own maximum,
and the subtraction broadcasts the target row across all channel rows; the
mean runs over all channels x steps entries. -/
def mseB (t : List ℚ) (S : List (List ℚ)) : ℚ :=
  let d := (S.map (fun row =>
    List.zipWith (fun a b => (b / listMax t - a / matMax S) ^ 2) row t)).flatten
  d.sum / (d.length : ℚ)

/-- Product w @ S of a channel vector with a (channels, steps) signal matrix:
one inner product of w against a column of S per time point, yielding the
reconstructed scalar trace. -/
def vecMatMul (w : List ℚ) (S : List (List ℚ)) : List ℚ :=
  (List.range (S.headD []).length).map
    (fun j => (List.zipWith (fun wi row => wi * row.getD j 0) w S).sum)

/-- Embedding of the reported-error loop (line 229): for each target, the
code appends the list of mse values of that target against each raw held-out
test signal matrix. -/
def evalMses (targets : List (List ℚ)) (testSignals : List (List (List ℚ))) :
    List (List ℚ) :=
  targets.map (fun t => testSignals.map (fun s => mseB t s))

/-- Error metric described by the specification: normalize the target and
the reconstructed trace w_readout . S_test each by its own maximum and take
the mean squared difference. -/
def claimedMse (t wRead : List ℚ) (S : List (List ℚ)) : ℚ :=
  listMse t (vecMatMul wRead S)

/-! ## Stimulus generator and trial runner (get_signals, lines 36-55) -/

/-- Rounding used by np.round: round half to even (banker's rounding). -/
def roundHalfToEven (q : ℚ) : ℤ :=
  if q - (⌊q⌋ : ℚ) < 1 / 2 then ⌊q⌋
  else if 1 / 2 < q - (⌊q⌋ : ℚ) then ⌊q⌋ + 1
  else if ⌊q⌋ % 2 = 0 then ⌊q⌋ else ⌊q⌋ + 1

/-- Number of retained samples per trial: start = int(np.round(cycle_steps / sr))
(line 42), the same expression as the module-level steps (line 140). -/
def steps (cycle_steps sr : ℕ) : ℕ :=
  (roundHalfToEven ((cycle_steps : ℚ) / (sr : ℚ))).toNat

/-- Zero matrix np.zeros((r, c)) as a row-major list of rows. -/
def npZeros (r c : ℕ) : List (List ℚ) :=
  List.replicate r (List.replicate c (0 : ℚ))

/-- Fancy-index assignment row[cols] = v into one row; the counter j is the
absolute index of the head of the remaining row. -/
def writeCols (cols : List ℕ) (v : ℚ) : ℕ → List ℚ → List ℚ
  | _, [] => []
  | j, x :: xs => (if j ∈ cols then v else x) :: writeCols cols v (j + 1) xs

/-- Slice assignment m[r0:r1, cols] = v with the row range clipped to the
array, as numpy clips slices; the counter i is the absolute index of the
head of the remaining rows. -/
def writeRows (r0 r1 : ℕ) (cols : List ℕ) (v : ℚ) : ℕ → List (List ℚ) → List (List ℚ)
  | _, [] => []
  | i, row :: rest =>
    (if r0 ≤ i ∧ i < r1 then writeCols cols v 0 row else row)
      :: writeRows r0 r1 cols v (i + 1) rest

/-- Stimulus matrix of one trial before smoothing (lines 45-46):
inp = np.zeros((stim + cycle_steps, N)) followed by
inp[stim:stim + stim_width, inp_indices] = alpha. -/
def buildStim (stim cycle_steps stim_width nN : ℕ) (inpIndices : List ℕ) (a : ℚ) :
    List (List ℚ) :=
  writeRows stim (stim + stim_width) inpIndices a 0 (npZeros (stim + cycle_steps) nN)

/-- Python slice a[-start:]: the last start elements, except that -0 means
the whole sequence. -/
def pyTakeLast {α : Type} (start : ℕ) (l : List α) : List α :=
  if start = 0 then l else l.drop (l.length - start)

/-- Python slice a[::k]: every k-th element starting from index 0. -/
def pyStride {α : Type} (k : ℕ) (l : List α) : List α :=
  ((List.range l.length).filter (fun i => i % k = 0)).filterMap (fun i => l[i]?)

/-- Transpose of a row-major rectangular matrix (the .T of line 51): one
result row per input column, hence one result column per input row. -/
def transposeLL (m : List (List ℚ)) : List (List ℚ) :=
  (List.range (m.headD []).length).map (fun j => m.map (fun row => row.getD j 0))

/-- Entry (i, j) of a row-major matrix. -/
def getEntry (m : List (List ℚ)) (i j : ℕ) : ℚ :=
  (m.getD i []).getD j 0

/-- Per-trial pipeline of get_signals (lines 45-51), with the external
collaborators abstracted as functions: sim is the simulator run (the reset
of line 48 makes each trial a pure function of its own input waveform) and
gf is scipy's gaussian_filter1d with fixed sigma along the time axis.  The
stimulus is built, smoothed, simulated, truncated to the last
steps cycle_steps sr sample rows, smoothed again and transposed. -/
def processTrial (cycle_steps sr stim_width nN : ℕ) (inpIndices : List ℕ) (a : ℚ)
    (sim gf : List (List ℚ) → List (List ℚ)) (stim : ℕ) : List (List ℚ) :=
  transposeLL (gf (pyTakeLast (steps cycle_steps sr)
    (sim (gf (buildStim stim cycle_steps stim_width nN inpIndices a)))))

/-- Downsampled input trace of one trial (line 52):
inp[::sr, inp_indices[0]][-start:]. -/
def trialInput (cycle_steps sr stim_width nN : ℕ) (inpIndices : List ℕ) (a : ℚ)
    (gf : List (List ℚ) → List (List ℚ)) (stim : ℕ) : List ℚ :=
  pyTakeLast (steps cycle_steps sr)
    ((pyStride sr (gf (buildStim stim cycle_steps stim_width nN inpIndices a))).map
      (fun row => row.getD (inpIndices.headD 0) 0))

/-- Embedding of get_signals (lines 36-55): one simulation per onset in
order, collecting the processed signal matrices and the downsampled input
traces.  No validation of the onsets is performed anywhere in the
function. -/
def get_signals (stim_onsets : List ℕ) (cycle_steps sr stim_width nN : ℕ)
    (inpIndices : List ℕ) (a : ℚ) (sim gf : List (List ℚ) → List (List ℚ)) :
    List (List (List ℚ)) × List (List ℚ) :=
  (stim_onsets.map (processTrial cycle_steps sr stim_width nN inpIndices a sim gf),
   stim_onsets.map (trialInput cycle_steps sr stim_width nN inpIndices a gf))

/-! ## Kernel estimation block (lines 196-229), on Mathlib matrices

Signals are (channels x steps) matrices; the block is polymorphic in the
scalar field so that the exact-arithmetic claims live over the rationals
and the spectral claim over the reals. -/

/-- Embedding of get_c (lines 64-67): X @ X.T + alpha * np.eye(X.shape[0]). -/
def get_c {F : Type} [Field F] {m n : ℕ} (X : Matrix (Fin m) (Fin n) F) (alpha : F) :
    Matrix (Fin m) (Fin m) F :=
  X * Xᵀ + alpha • 1

/-- Elementwise mean of a list of equally shaped matrices, as np.mean(-, axis=0)
computes it on a stacked array. -/
def matMean {F : Type} [Field F] {m n : ℕ} (l : List (Matrix (Fin m) (Fin n) F)) :
    Matrix (Fin m) (Fin n) F :=
  (l.length : F)⁻¹ • l.sum

/-- Mean signal s_mean = np.mean(train_signals, axis=0) (line 210). -/
def sMean {F : Type} [Field F] {m n : ℕ} (l : List (Matrix (Fin m) (Fin n) F)) :
    Matrix (Fin m) (Fin n) F :=
  matMean l

/-- Mean deviation s_var = np.mean([s_i - s_mean for s_i in train_signals], axis=0)
(line 211). -/
def sVar {F : Type} [Field F] {m n : ℕ} (l : List (Matrix (Fin m) (Fin n) F)) :
    Matrix (Fin m) (Fin n) F :=
  matMean (l.map (fun s => s - sMean l))

/-- Per-trial covariance list cs (loop of lines 199-207, covariance part). -/
def covList {F : Type} [Field F] {m n : ℕ} (l : List (Matrix (Fin m) (Fin n) F))
    (alpha : F) : List (Matrix (Fin m) (Fin m) F) :=
  l.map (fun s => get_c s alpha)

/-- Mean covariance np.mean(cs, axis=0) (inside line 212). -/
def CbarMean {F : Type} [Field F] {m n : ℕ} (l : List (Matrix (Fin m) (Fin n) F))
    (alpha : F) : Matrix (Fin m) (Fin m) F :=
  matMean (covList l alpha)

/-- Inverse of a square matrix over a field, written so that it is
executable: the scaled adjugate, which agrees with Mathlib's nonsingular
inverse (and with np.linalg.inv wherever the latter is defined). -/
def matInv {F : Type} [Field F] {m : ℕ} (A : Matrix (Fin m) (Fin m) F) :
    Matrix (Fin m) (Fin m) F :=
  A.det⁻¹ • A.adjugate

/-- C_inv = np.linalg.inv(np.mean(cs, axis=0)) (line 212). -/
def C_inv {F : Type} [Field F] {m n : ℕ} (l : List (Matrix (Fin m) (Fin n) F))
    (alpha : F) : Matrix (Fin m) (Fin m) F :=
  matInv (CbarMean l alpha)

/-- Weight matrix w = C_inv @ s_mean (line 213). -/
def wMat {F : Type} [Field F] {m n : ℕ} (l : List (Matrix (Fin m) (Fin n) F))
    (alpha : F) : Matrix (Fin m) (Fin n) F :=
  C_inv l alpha * sMean l

/-- Kernel K = s_mean.T @ w (line 214). -/
def kernelK {F : Type} [Field F] {m n : ℕ} (l : List (Matrix (Fin m) (Fin n) F))
    (alpha : F) : Matrix (Fin n) (Fin n) F :=
  (sMean l)ᵀ * wMat l alpha

/-- Variance kernel G = s_var.T @ w (line 215). -/
def kernelG {F : Type} [Field F] {m n : ℕ} (l : List (Matrix (Fin m) (Fin n) F))
    (alpha : F) : Matrix (Fin n) (Fin n) F :=
  (sVar l)ᵀ * wMat l alpha

/-- Maximum entry of a vector indexed by Fin. -/
def vecMaxQ {k : ℕ} (v : Fin k → ℚ) : ℚ :=
  listMax (List.ofFn v)

/-- Maximum entry of a Fin-indexed matrix. -/
def matMaxQ {m n : ℕ} (S : Matrix (Fin m) (Fin n) ℚ) : ℚ :=
  listMax (List.ofFn (fun i => List.ofFn (S i))).flatten

/-- Broadcast mse of a target vector against a raw signal matrix (the
Fin-indexed counterpart of mseB, used by the evaluation loop at line 229). -/
def mseBM {nc ns : ℕ} (t : Fin ns → ℚ) (S : Matrix (Fin nc) (Fin ns) ℚ) : ℚ :=
  (∑ i, ∑ j, (t j / vecMaxQ t - S i j / matMaxQ S) ^ 2) / ((nc : ℚ) * (ns : ℚ))

/-- Inputs of one analysis run: the training trials, the held-out test
trials, the targets to fit and the regularization constant. -/
structure RunData (nc ns : ℕ) where
  trainSignals : List (Matrix (Fin nc) (Fin ns) ℚ)
  testSignals : List (Matrix (Fin nc) (Fin ns) ℚ)
  targets : List (Fin ns → ℚ)
  alpha : ℚ

/-- Outputs of one analysis run (lines 210-229). -/
structure RunOutput (nc ns : ℕ) where
  K : Matrix (Fin ns) (Fin ns) ℚ
  G : Matrix (Fin ns) (Fin ns) ℚ
  W : Matrix (Fin nc) (Fin ns) ℚ
  trainPredictions : List (Fin ns → ℚ)
  trainDistortions : List (Fin ns → ℚ)
  readouts : List (Fin nc → ℚ)
  testPredictions : List (List (Fin ns → ℚ))
  mses : List (List ℚ)

/-- Whole analysis run (lines 210-229): kernel estimation from the training
trials, followed by the per-target evaluation loop over the test trials. -/
def runPipeline {nc ns : ℕ} (r : RunData nc ns) : RunOutput nc ns :=
  { K := kernelK r.trainSignals r.alpha
    G := kernelG r.trainSignals r.alpha
    W := wMat r.trainSignals r.alpha
    trainPredictions := r.targets.map (fun t => kernelK r.trainSignals r.alpha *ᵥ t)
    trainDistortions := r.targets.map (fun t => kernelG r.trainSignals r.alpha *ᵥ t)
    readouts := r.targets.map (fun t => wMat r.trainSignals r.alpha *ᵥ t)
    testPredictions := r.targets.map (fun t =>
      r.testSignals.map (fun s => (wMat r.trainSignals r.alpha *ᵥ t) ᵥ* s))
    mses := r.targets.map (fun t => r.testSignals.map (fun s => mseBM t s)) }

/-! ## Connection-distance function (lines 27-33) -/

namespace Snn

/-- Embedding of dist (snn_function_generation.py, lines 27-33), namespaced
to avoid the clash with Mathlib's metric-space dist.  The two recognised
methods return a value (1/x**inverse_pow resp. exp(-x) for positive x,
zero_val otherwise); any other method name raises ValueError, modelled as an
error result. -/
noncomputable def dist (x : ℤ) (method : String) (zero_val inverse_pow : ℝ) :
    Except String ℝ :=
  if method = "inverse" then
    Except.ok (if 0 < x then 1 / (x : ℝ) ^ inverse_pow else zero_val)
  else if method = "exp" then
    Except.ok (if 0 < x then Real.exp (-(x : ℝ)) else zero_val)
  else
    Except.error "Invalid method."

end Snn

/-! ## Command-line handling of the bifurcation scripts -/

/-- Matching of a needle against the front of a haystack, on character
lists. -/
def leadsWith : List Char → List Char → Bool
  | [], _ => true
  | _ :: _, [] => false
  | a :: as, b :: bs => a == b && leadsWith as bs

/-- Contiguous-substring test on character lists. -/
def containsSeq (needle : List Char) : List Char → Bool
  | [] => needle.isEmpty
  | c :: rest => leadsWith needle (c :: rest) || containsSeq needle rest

/-- Python's in operator on strings: the needle occurs contiguously in the
haystack. -/
def pyIn (needle hay : String) : Bool :=
  containsSeq needle.toList hay.toList

/-- Hardcoded fallback installation directory of the continuation engine
(bifurcation_rs.py line 19, bifurcation_fs.py line 18). -/
def defaultAutoDir : String :=
  "~/PycharmProjects/auto-07p"

/-- Embedding of the auto_dir selection (bifurcation_rs.py lines 18-19,
bifurcation_fs.py lines 17-18).  path is sys.argv[-1]; the
type(path) is str test is always true for an argv entry, so the selection
reduces to the ".py" substring test. -/
def getAutoDir (path : String) : String :=
  if pyIn ".py" path then defaultAutoDir else path

/-- Set of eigenvalues of a square real matrix. -/
def eigSet {k : ℕ} (A : Matrix (Fin k) (Fin k) ℝ) : Set ℝ :=
  {t | ∃ x : Fin k → ℝ, x ≠ 0 ∧ A *ᵥ x = t • x}

/-- Condition number of a symmetric positive semidefinite matrix: the
largest eigenvalue divided by the smallest. -/
noncomputable def condNumber {k : ℕ} (A : Matrix (Fin k) (Fin k) ℝ) : ℝ :=
  sSup (eigSet A) / sInf (eigSet A)

/-! ## Shape and entry lemmas for the stimulus writer -/

lemma writeCols_length (cols : List ℕ) (v : ℚ) (j : ℕ) (row : List ℚ) :
    (writeCols cols v j row).length = row.length := by
  induction row generalizing j with
  | nil => rfl
  | cons x xs ih => simp [writeCols, ih]

lemma writeCols_getD (cols : List ℕ) (v : ℚ) (row : List ℚ) :
    ∀ (j k : ℕ), k < row.length →
      (writeCols cols v j row).getD k 0 = if j + k ∈ cols then v else row.getD k 0 := by
  induction row with
  | nil => intro j k hk; simp at hk
  | cons x xs ih =>
    intro j k hk
    cases k with
    | zero => simp [writeCols]
    | succ k =>
      have hrec := ih (j + 1) k (by simpa using hk)
      rw [show j + (k + 1) = (j + 1) + k by omega]
      simpa [writeCols] using hrec

lemma writeRows_length (r0 r1 : ℕ) (cols : List ℕ) (v : ℚ) (i : ℕ)
    (m : List (List ℚ)) : (writeRows r0 r1 cols v i m).length = m.length := by
  induction m generalizing i with
  | nil => rfl
  | cons row rest ih => simp [writeRows, ih]

lemma writeRows_getD (r0 r1 : ℕ) (cols : List ℕ) (v : ℚ) (m : List (List ℚ)) :
    ∀ (i k : ℕ), k < m.length →
      (writeRows r0 r1 cols v i m).getD k [] =
        if r0 ≤ i + k ∧ i + k < r1 then writeCols cols v 0 (m.getD k [])
        else m.getD k [] := by
  induction m with
  | nil => intro i k hk; simp at hk
  | cons row rest ih =>
    intro i k hk
    cases k with
    | zero => simp [writeRows]
    | succ k =>
      have hrec := ih (i + 1) k (by simpa using hk)
      rw [show i + (k + 1) = (i + 1) + k by omega]
      simpa [writeRows] using hrec

lemma mem_writeRows_length (r0 r1 : ℕ) (cols : List ℕ) (v : ℚ) (c : ℕ) :
    ∀ (i : ℕ) (m : List (List ℚ)), (∀ r ∈ m, r.length = c) →
      ∀ row ∈ writeRows r0 r1 cols v i m, row.length = c := by
  intro i m
  induction m generalizing i with
  | nil => intro _ row hrow; simp [writeRows] at hrow
  | cons hd rest ih =>
    intro hm row hrow
    rcases (by simpa [writeRows] using hrow :
        row = (if r0 ≤ i ∧ i < r1 then writeCols cols v 0 hd else hd) ∨
          row ∈ writeRows r0 r1 cols v (i + 1) rest) with h | h
    · subst h
      split
      · rw [writeCols_length]; exact hm hd (by simp)
      · exact hm hd (by simp)
    · exact ih (i + 1) (fun r hr => hm r (by simp [hr])) row h

lemma buildStim_length (stim cs sw nN : ℕ) (idxs : List ℕ) (a : ℚ) :
    (buildStim stim cs sw nN idxs a).length = stim + cs := by
  simp [buildStim, writeRows_length, npZeros]

/-! ## Claim C1 -/

/-- C1 (code bug): the error metric reported by the evaluation loop
(line 229) is mse(target, test_sig) on the raw multichannel test signal, not
the mse of the target against the reconstructed trace w_readout . S_test
that the specification states (and that the plot of the predictions pairs
the value with).  At target [1, 2], test signal [[1, 2], [3, 1]] and readout
[1, 2] the code reports 5/24 while the metric of the claim yields 85/392. -/
theorem c1_reported_mse_ignores_readout :
    evalMses [[1, 2]] [[[1, 2], [3, 1]]] = [[5 / 24]] ∧
    claimedMse [1, 2] [1, 2] [[1, 2], [3, 1]] = 85 / 392 ∧
    (5 / 24 : ℚ) ≠ 85 / 392 := by
  refine ⟨?_, ?_, by norm_num⟩
  · norm_num [evalMses, mseB, matMax, listMax]
  · norm_num [claimedMse, listMse, vecMatMul, listMax, List.range_succ]

/-! ## Claim C5 -/

/-- C5 counterexample: with onset 5 and cycle length 10 the pre-smoothing
stimulus matrix has 15 rows, so its shape is not (cycle_length,
total_channels) as the claim states. -/
theorem c5_stim_shape_counterexample :
    (buildStim 5 10 2 3 [0] 80).length = 15 ∧ (15 : ℕ) ≠ 10 := by
  exact ⟨by decide, by decide⟩

/-- C5 amended: for every onset the stimulus generator builds, before
smoothing, a zero matrix of shape (onset + cycle_length, total_channels)
with the pulse of fixed width and magnitude written into the listed channel
indices in the rows starting at the onset (the row slice being clipped to
the matrix, as in numpy); the Gaussian filter with fixed sigma along the
time axis is applied afterwards (the gf stage of processTrial). -/
theorem c5_amended_stimulus (stim cs sw nN : ℕ) (idxs : List ℕ) (a : ℚ) (i j : ℕ)
    (hi : i < stim + cs) (hj : j < nN) :
    (buildStim stim cs sw nN idxs a).length = stim + cs ∧
    (∀ row ∈ buildStim stim cs sw nN idxs a, row.length = nN) ∧
    getEntry (buildStim stim cs sw nN idxs a) i j =
      (if stim ≤ i ∧ i < stim + sw ∧ j ∈ idxs then a else 0) := by
  have hzrows : ∀ r ∈ npZeros (stim + cs) nN, r.length = nN := by
    intro r hr
    simp only [npZeros, List.mem_replicate] at hr
    simp [hr.2]
  refine ⟨buildStim_length stim cs sw nN idxs a, ?_, ?_⟩
  · exact mem_writeRows_length stim (stim + sw) idxs a nN 0 _ hzrows
  · have hlen : i < (npZeros (stim + cs) nN).length := by simpa [npZeros] using hi
    have hrow : (npZeros (stim + cs) nN).getD i [] = List.replicate nN 0 := by
      rw [List.getD_eq_getElem _ _ hlen]
      simp [npZeros]
    rw [getEntry, buildStim, writeRows_getD stim (stim + sw) idxs a _ 0 i hlen]
    rw [Nat.zero_add, hrow]
    by_cases hrange : stim ≤ i ∧ i < stim + sw
    · rw [if_pos hrange, writeCols_getD idxs a _ 0 j (by simp [hj]), Nat.zero_add]
      by_cases hjc : j ∈ idxs
      · simp [hjc, hrange]
      · simp only [if_neg hjc]
        rw [List.getD_eq_getElem _ _ (by simp [hj])]
        simp [hjc, hrange]
    · rw [if_neg hrange]
      rw [List.getD_eq_getElem _ _ (by simp [hj])]
      have : ¬(stim ≤ i ∧ i < stim + sw ∧ j ∈ idxs) := by tauto
      simp [this]

/-- C5 witness: the amended characterization evaluated at onset 1, cycle
length 2, pulse width 1, 2 channels, channel list [0], magnitude 80, at the
pulse entry (1, 0). -/
theorem c5_amended_stimulus_witness :
    (1 < 1 + 2 ∧ 0 < 2) ∧
    ((buildStim 1 2 1 2 [0] 80).length = 1 + 2 ∧
      (∀ row ∈ buildStim 1 2 1 2 [0] 80, row.length = 2) ∧
      getEntry (buildStim 1 2 1 2 [0] 80) 1 0 =
        (if 1 ≤ 1 ∧ 1 < 1 + 1 ∧ 0 ∈ [0] then (80 : ℚ) else 0)) :=
  ⟨⟨by decide, by decide⟩, c5_amended_stimulus 1 2 1 2 [0] 80 1 0 (by decide) (by decide)⟩

/-! ## Claim C8 -/

/-- C8 counterexample: with cycle_steps = 10 and onsets 0 and 30 the
boundary condition of the claim is violated (the last onset plus
cycle_steps, 40, exceeds cycle_steps times the number of trials, 20), yet
no configuration error exists anywhere: get_signals processes both trials
and returns one signal per onset, the offending trial included. -/
theorem c8_no_boundary_error_counterexample :
    10 * 2 < 30 + 10 ∧
    (get_signals [0, 30] 10 10 1 1 [0] 80 (fun m => m) (fun m => m)).1.length = 2 := by
  exact ⟨by decide, rfl⟩

/-- C8 amended: the pipeline performs no onset validation at all: for every
onset list get_signals raises nothing, builds each trial an input of
onset + cycle_steps rows and invokes the simulator once per onset, so the
processed simulator output of every onset, boundary-violating or not,
appears in the returned signal list. -/
theorem c8_amended_no_validation (onsets : List ℕ) (cs sr sw nN : ℕ) (idxs : List ℕ)
    (a : ℚ) (sim gf : List (List ℚ) → List (List ℚ)) (stim : ℕ) (hstim : stim ∈ onsets) :
    (get_signals onsets cs sr sw nN idxs a sim gf).1.length = onsets.length ∧
    (buildStim stim cs sw nN idxs a).length = stim + cs ∧
    processTrial cs sr sw nN idxs a sim gf stim ∈
      (get_signals onsets cs sr sw nN idxs a sim gf).1 := by
  refine ⟨by simp [get_signals], buildStim_length stim cs sw nN idxs a, ?_⟩
  simp only [get_signals]
  exact List.mem_map.mpr ⟨stim, hstim, rfl⟩

/-- C8 witness: the amended statement evaluated at the violating
configuration of the counterexample, for the offending onset 30. -/
theorem c8_amended_no_validation_witness :
    30 ∈ [0, 30] ∧
    ((get_signals [0, 30] 10 10 1 1 [0] 80 (fun m => m) (fun m => m)).1.length = [0, 30].length ∧
      (buildStim 30 10 1 1 [0] 80).length = 30 + 10 ∧
      processTrial 10 10 1 1 [0] 80 (fun m => m) (fun m => m) 30 ∈
        (get_signals [0, 30] 10 10 1 1 [0] 80 (fun m => m) (fun m => m)).1) :=
  ⟨by decide,
    c8_amended_no_validation [0, 30] 10 10 1 1 [0] 80 (fun m => m) (fun m => m) 30 (by decide)⟩

/-! ## Claim C9 -/

/-- C9: dist raises ValueError exactly when the method is neither "inverse"
nor "exp"; for method "inverse" it returns 1/x^inverse_pow for positive x
and zero_val otherwise, for method "exp" it returns exp(-x) for positive x
and zero_val otherwise, never raising. -/
theorem c9_dist_error_iff (x : ℤ) (method : String) (zv ip : ℝ) :
    ((∃ e, Snn.dist x method zv ip = Except.error e) ↔
      method ≠ "inverse" ∧ method ≠ "exp") ∧
    Snn.dist x "inverse" zv ip = Except.ok (if 0 < x then 1 / (x : ℝ) ^ ip else zv) ∧
    Snn.dist x "exp" zv ip = Except.ok (if 0 < x then Real.exp (-(x : ℝ)) else zv) := by
  refine ⟨⟨?_, ?_⟩, ?_, ?_⟩
  · rintro ⟨e, he⟩
    constructor
    · intro h; rw [h] at he; unfold Snn.dist at he; simp at he
    · intro h; rw [h] at he; unfold Snn.dist at he; simp at he
  · rintro ⟨h1, h2⟩
    unfold Snn.dist
    simp [h1, h2]
  · unfold Snn.dist; simp
  · unfold Snn.dist; simp

/-! ## Claim C10 -/

/-- C10: the continuation-engine installation directory is the last argv
entry exactly when that entry does not contain ".py"; otherwise — in
particular when the argument is omitted and argv ends in the script's own
file name — the hardcoded default path is used. -/
theorem c10_auto_dir_selection :
    (∀ path : String,
      (pyIn ".py" path = false ∧ getAutoDir path = path) ∨
      (pyIn ".py" path = true ∧ getAutoDir path = defaultAutoDir)) ∧
    getAutoDir "bifurcation_rs.py" = defaultAutoDir ∧
    getAutoDir "bifurcation_fs.py" = defaultAutoDir := by
  refine ⟨fun path => ?_, by decide, by decide⟩
  cases h : pyIn ".py" path with
  | false => exact Or.inl ⟨rfl, by simp [getAutoDir, h]⟩
  | true => exact Or.inr ⟨rfl, by simp [getAutoDir, h]⟩

/-! ## Claim C2 -/

lemma listSumMapSub {A M : Type} [AddCommGroup M] (l : List A) (f g : A → M) :
    (l.map (fun a => f a - g a)).sum = (l.map f).sum - (l.map g).sum := by
  induction l with
  | nil => simp
  | cons a t ih =>
    simp only [List.map_cons, List.sum_cons, ih]
    abel

lemma sVar_eq_zero {nc ns : ℕ} (l : List (Matrix (Fin nc) (Fin ns) ℚ)) (h : l ≠ []) :
    sVar l = 0 := by
  have hlen : (l.length : ℚ) ≠ 0 :=
    Nat.cast_ne_zero.mpr (fun h0 => h (List.length_eq_zero.mp h0))
  unfold sVar sMean matMean
  rw [listSumMapSub l (fun s => s) (fun _ => (l.length : ℚ)⁻¹ • l.sum)]
  simp only [List.map_id']
  rw [List.map_const', List.sum_replicate]
  rw [← Nat.cast_smul_eq_nsmul ℚ l.length ((l.length : ℚ)⁻¹ • l.sum)]
  rw [smul_smul, mul_inv_cancel₀ hlen, one_smul, sub_self, smul_zero]

/-- C2: in exact arithmetic the mean deviation s_var of the training signals
from their elementwise mean is the zero matrix for every non-empty training
set, so the variance kernel G = s_var.T @ w vanishes and the training-set
distortion estimate G @ target is the zero vector for every target. -/
theorem c2_svar_G_vanish {nc ns : ℕ} (l : List (Matrix (Fin nc) (Fin ns) ℚ))
    (alpha : ℚ) (t : Fin ns → ℚ) (h : l ≠ []) :
    sVar l = 0 ∧ kernelG l alpha = 0 ∧ kernelG l alpha *ᵥ t = 0 := by
  have h0 := sVar_eq_zero l h
  refine ⟨h0, by simp [kernelG, h0], by simp [kernelG, h0]⟩

/-- C2 witness: the vanishing statement evaluated on a singleton training
set of 1x1 signals. -/
theorem c2_svar_G_vanish_witness :
    ([(1 : Matrix (Fin 1) (Fin 1) ℚ)] ≠ []) ∧
    (sVar [(1 : Matrix (Fin 1) (Fin 1) ℚ)] = 0 ∧
      kernelG [(1 : Matrix (Fin 1) (Fin 1) ℚ)] 1 = 0 ∧
      kernelG [(1 : Matrix (Fin 1) (Fin 1) ℚ)] 1 *ᵥ (fun _ => 1) = 0) :=
  ⟨by simp, c2_svar_G_vanish [(1 : Matrix (Fin 1) (Fin 1) ℚ)] 1 (fun _ => 1) (by simp)⟩

/-! ## Claim C3 -/

/-- C3: the kernel K, the variance kernel G and the weight matrix W computed
by the analysis run are functions of the training signals and the
regularization constant only: two runs agreeing on those, however much
their test trials and targets differ, produce identical K, G and W. -/
theorem c3_kernel_no_test_leakage {nc ns : ℕ} (r1 r2 : RunData nc ns)
    (htrain : r1.trainSignals = r2.trainSignals) (halpha : r1.alpha = r2.alpha) :
    (runPipeline r1).K = (runPipeline r2).K ∧
    (runPipeline r1).G = (runPipeline r2).G ∧
    (runPipeline r1).W = (runPipeline r2).W := by
  refine ⟨?_, ?_, ?_⟩ <;> simp [runPipeline, htrain, halpha]

/-- C3 witness: two concrete runs sharing training data and alpha but
differing in test signals and targets. -/
theorem c3_kernel_no_test_leakage_witness :
    ((⟨[1], [1], [fun _ => 1], 1⟩ : RunData 1 1).trainSignals =
        (⟨[1], [2], [fun _ => 2], 1⟩ : RunData 1 1).trainSignals ∧
      (⟨[1], [1], [fun _ => 1], 1⟩ : RunData 1 1).alpha =
        (⟨[1], [2], [fun _ => 2], 1⟩ : RunData 1 1).alpha) ∧
    ((runPipeline (⟨[1], [1], [fun _ => 1], 1⟩ : RunData 1 1)).K =
        (runPipeline (⟨[1], [2], [fun _ => 2], 1⟩ : RunData 1 1)).K ∧
      (runPipeline (⟨[1], [1], [fun _ => 1], 1⟩ : RunData 1 1)).G =
        (runPipeline (⟨[1], [2], [fun _ => 2], 1⟩ : RunData 1 1)).G ∧
      (runPipeline (⟨[1], [1], [fun _ => 1], 1⟩ : RunData 1 1)).W =
        (runPipeline (⟨[1], [2], [fun _ => 2], 1⟩ : RunData 1 1)).W) :=
  ⟨⟨rfl, rfl⟩, c3_kernel_no_test_leakage _ _ rfl rfl⟩

/-! ## Claim C4 -/

lemma pyTakeLast_length {α : Type} (start : ℕ) (l : List α) (h0 : start ≠ 0)
    (hle : start ≤ l.length) : (pyTakeLast start l).length = start := by
  unfold pyTakeLast
  rw [if_neg h0, List.length_drop]
  omega

/-- C4: every signal matrix collected by the trial runner has exactly
steps cycle_steps sr time columns, whatever the onset and however long the
input waveform, provided the simulator returns at least that many sample
rows (and the per-run steps constant is positive, as it is for the run's
cycle_steps = 25000, sr = 10). -/
theorem c4_truncation_invariant (onsets : List ℕ) (cs sr sw nN : ℕ) (idxs : List ℕ)
    (a : ℚ) (sim gf : List (List ℚ) → List (List ℚ)) (st : ℕ)
    (hst : steps cs sr = st) (h0 : 0 < st)
    (hgf : ∀ m, (gf m).length = m.length)
    (hsim : ∀ inp, st ≤ (sim inp).length) :
    ∀ sig ∈ (get_signals onsets cs sr sw nN idxs a sim gf).1,
      ∀ row ∈ sig, row.length = st := by
  subst hst
  intro sig hsig row hrow
  simp only [get_signals, List.mem_map] at hsig
  obtain ⟨stim, _, rfl⟩ := hsig
  unfold processTrial at hrow
  simp only [transposeLL, List.mem_map] at hrow
  obtain ⟨j, _, rfl⟩ := hrow
  rw [List.length_map, hgf]
  exact pyTakeLast_length _ _ (Nat.pos_iff_ne_zero.mp h0) (hsim _)

lemma steps_twenty_ten : steps 20 10 = 2 := by
  norm_num [steps, roundHalfToEven]
  rfl

/-- C4 witness: the invariant evaluated at cycle_steps = 20, sr = 10
(steps = 2), two onsets, a simulator returning two sample rows and the
identity in place of the shape-preserving Gaussian filter. -/
theorem c4_truncation_invariant_witness :
    (steps 20 10 = 2 ∧ 0 < 2 ∧
      (∀ m : List (List ℚ), (id m).length = m.length) ∧
      (∀ inp : List (List ℚ),
        2 ≤ ((fun _ => List.replicate 2 ([] : List ℚ)) inp).length)) ∧
    (∀ sig ∈ (get_signals [0, 7] 20 10 3 2 [0] 80
        (fun _ => List.replicate 2 ([] : List ℚ)) id).1,
      ∀ row ∈ sig, row.length = 2) :=
  ⟨⟨steps_twenty_ten, by decide, fun _ => rfl, fun _ => by simp⟩,
    c4_truncation_invariant [0, 7] 20 10 3 2 [0] 80
      (fun _ => List.replicate 2 ([] : List ℚ)) id 2 steps_twenty_ten (by decide)
      (fun _ => rfl) (fun _ => by simp)⟩

/-! ## Claim C6 -/

lemma listMax_map_mul (c : ℚ) (hc : 0 < c) (l : List ℚ) :
    listMax (l.map (fun a => c * a)) = c * listMax l := by
  cases l with
  | nil => simp [listMax]
  | cons x xs =>
    simp only [List.map_cons, listMax]
    induction xs generalizing x with
    | nil => simp
    | cons y ys ih =>
      simp only [List.map_cons, List.foldl_cons]
      rw [← mul_max_of_nonneg x y hc.le]
      exact ih (max x y)

lemma listMse_smul_left (c : ℚ) (hc : 0 < c) (x y : List ℚ) :
    listMse (x.map (fun a => c * a)) y = listMse x y := by
  unfold listMse
  rw [listMax_map_mul c hc x, List.zipWith_map_left]
  have hfun : (fun a b => (c * a / (c * listMax x) - b / listMax y) ^ 2) =
      (fun a b => (a / listMax x - b / listMax y) ^ 2 : ℚ → ℚ → ℚ) := by
    funext a b
    rw [mul_div_mul_left a (listMax x) (ne_of_gt hc)]
  rw [hfun]

lemma listMse_smul_right (c : ℚ) (hc : 0 < c) (x y : List ℚ) :
    listMse x (y.map (fun a => c * a)) = listMse x y := by
  unfold listMse
  rw [listMax_map_mul c hc y, List.zipWith_map_right]
  have hfun : (fun a b => (a / listMax x - c * b / (c * listMax y)) ^ 2) =
      (fun a b => (a / listMax x - b / listMax y) ^ 2 : ℚ → ℚ → ℚ) := by
    funext a b
    rw [mul_div_mul_left b (listMax y) (ne_of_gt hc)]
  rw [hfun]

/-- C6: the max-normalized MSE metric is scale invariant: multiplying either
argument by a positive constant leaves the value unchanged, for vectors of
equal length whose maxima are nonzero (a zero maximum, where the metric is
undefined, is excluded by the precondition). -/
theorem c6_mse_scale_invariant (x y : List ℚ) (c : ℚ) (_hlen : x.length = y.length)
    (hc : 0 < c) (_hx : listMax x ≠ 0) (_hy : listMax y ≠ 0) :
    listMse (x.map (fun a => c * a)) y = listMse x y ∧
    listMse x (y.map (fun a => c * a)) = listMse x y :=
  ⟨listMse_smul_left c hc x y, listMse_smul_right c hc x y⟩

/-- C6 witness: scale invariance evaluated at x = [1, 2], y = [2, 1],
c = 2. -/
theorem c6_mse_scale_invariant_witness :
    ([(1 : ℚ), 2].length = [(2 : ℚ), 1].length ∧ (0 : ℚ) < 2 ∧
      listMax [(1 : ℚ), 2] ≠ 0 ∧ listMax [(2 : ℚ), 1] ≠ 0) ∧
    (listMse ([(1 : ℚ), 2].map (fun a => 2 * a)) [2, 1] = listMse [1, 2] [2, 1] ∧
      listMse [(1 : ℚ), 2] ([(2 : ℚ), 1].map (fun a => 2 * a)) = listMse [1, 2] [2, 1]) :=
  ⟨⟨rfl, by decide, by decide, by decide⟩,
    c6_mse_scale_invariant [1, 2] [2, 1] 2 rfl (by decide) (by decide) (by decide)⟩

/-! ## Claim C7: condition number of the regularized mean covariance -/

lemma listSumMapAdd {A M : Type} [AddCommMonoid M] (l : List A) (f g : A → M) :
    (l.map (fun a => f a + g a)).sum = (l.map f).sum + (l.map g).sum := by
  induction l with
  | nil => simp
  | cons a t ih =>
    simp only [List.map_cons, List.sum_cons, ih]
    abel

lemma gram_posSemidef {m n : ℕ} (s : Matrix (Fin m) (Fin n) ℝ) :
    (s * sᵀ).PosSemidef := by
  have h := posSemidef_self_mul_conjTranspose s
  rwa [conjTranspose_eq_transpose_of_trivial] at h

lemma listSum_posSemidef {k : ℕ} (L : List (Matrix (Fin k) (Fin k) ℝ))
    (h : ∀ B ∈ L, B.PosSemidef) : L.sum.PosSemidef := by
  induction L with
  | nil => exact Matrix.PosSemidef.zero
  | cons B rest ih =>
    rw [List.sum_cons]
    exact (h B (by simp)).add (ih (fun C hC => h C (by simp [hC])))

lemma posSemidef_smul_nonneg {k : ℕ} {A : Matrix (Fin k) (Fin k) ℝ} {c : ℝ}
    (hA : A.PosSemidef) (hc : 0 ≤ c) : (c • A).PosSemidef := by
  constructor
  · unfold Matrix.IsHermitian
    rw [conjTranspose_smul, hA.1]
    simp
  · intro x
    rw [smul_mulVec_assoc, dotProduct_smul, smul_eq_mul]
    exact mul_nonneg hc (hA.2 x)

lemma matMean_gram_posSemidef {m n : ℕ} (S : List (Matrix (Fin m) (Fin n) ℝ)) :
    (matMean (S.map (fun s => s * sᵀ))).PosSemidef := by
  unfold matMean
  refine posSemidef_smul_nonneg ?_ (by positivity)
  refine listSum_posSemidef _ ?_
  intro B hB
  obtain ⟨s, _, rfl⟩ := List.mem_map.mp hB
  exact gram_posSemidef s

lemma CbarMean_eq_gram_add {m n : ℕ} (S : List (Matrix (Fin m) (Fin n) ℝ)) (c : ℝ)
    (hS : S ≠ []) :
    CbarMean S c = matMean (S.map (fun s => s * sᵀ)) + c • 1 := by
  have hlen : (S.length : ℝ) ≠ 0 :=
    Nat.cast_ne_zero.mpr (fun h0 => hS (List.length_eq_zero.mp h0))
  unfold CbarMean covList get_c matMean
  simp only [List.length_map]
  rw [listSumMapAdd S (fun s => s * sᵀ) (fun _ => c • (1 : Matrix (Fin m) (Fin m) ℝ))]
  rw [List.map_const', List.sum_replicate, smul_add]
  congr 1
  rw [← Nat.cast_smul_eq_nsmul ℝ S.length (c • (1 : Matrix (Fin m) (Fin m) ℝ))]
  rw [smul_smul, inv_mul_cancel₀ hlen, one_smul]

lemma range_eigenvalues_subset_eigSet {k : ℕ} {A : Matrix (Fin k) (Fin k) ℝ}
    (hA : A.IsHermitian) : Set.range hA.eigenvalues ⊆ eigSet A := by
  rintro t ⟨i, rfl⟩
  refine ⟨hA.eigenvectorBasis i, ?_, hA.mulVec_eigenvectorBasis i⟩
  intro h
  exact hA.eigenvectorBasis.orthonormal.ne_zero i h

lemma eigSet_subset_range_eigenvalues {k : ℕ} {A : Matrix (Fin k) (Fin k) ℝ}
    (hA : A.IsHermitian) : eigSet A ⊆ Set.range hA.eigenvalues := by
  rintro t ⟨x, hx, hAx⟩
  have h2 : (hA.eigenvectorUnitary : Matrix (Fin k) (Fin k) ℝ) *
      star (hA.eigenvectorUnitary : Matrix (Fin k) (Fin k) ℝ) = 1 :=
    unitary.coe_mul_star_self _
  have hdiag : star (hA.eigenvectorUnitary : Matrix (Fin k) (Fin k) ℝ) * A *
      (hA.eigenvectorUnitary : Matrix (Fin k) (Fin k) ℝ) = diagonal hA.eigenvalues := by
    have h := hA.star_mul_self_mul_eq_diagonal
    rwa [RCLike.ofReal_real_eq_id, Function.id_comp] at h
  set V : Matrix (Fin k) (Fin k) ℝ := (hA.eigenvectorUnitary : Matrix (Fin k) (Fin k) ℝ)
  set y : Fin k → ℝ := star V *ᵥ x with hy
  have hxy : V *ᵥ y = x := by
    rw [hy, mulVec_mulVec, h2, one_mulVec]
  have hy0 : y ≠ 0 := fun h => hx (by rw [← hxy, h, mulVec_zero])
  have hDy : diagonal hA.eigenvalues *ᵥ y = t • y := by
    rw [← hdiag]
    calc (star V * A * V) *ᵥ y
        = (star V * A) *ᵥ (V *ᵥ y) := (mulVec_mulVec y (star V * A) V).symm
      _ = (star V * A) *ᵥ x := by rw [hxy]
      _ = star V *ᵥ (A *ᵥ x) := (mulVec_mulVec x (star V) A).symm
      _ = star V *ᵥ (t • x) := by rw [hAx]
      _ = t • (star V *ᵥ x) := by rw [mulVec_smul]
      _ = t • y := by rw [← hy]
  obtain ⟨i, hyi⟩ := Function.ne_iff.mp hy0
  have hcomp : hA.eigenvalues i * y i = t * y i := by
    have h := congrFun hDy i
    rwa [mulVec_diagonal] at h
  exact ⟨i, mul_right_cancel₀ hyi hcomp⟩

lemma eigSet_eq_range {k : ℕ} {A : Matrix (Fin k) (Fin k) ℝ} (hA : A.IsHermitian) :
    eigSet A = Set.range hA.eigenvalues :=
  Set.Subset.antisymm (eigSet_subset_range_eigenvalues hA)
    (range_eigenvalues_subset_eigSet hA)

lemma eigSet_add_smul_one {k : ℕ} (A : Matrix (Fin k) (Fin k) ℝ) (c : ℝ) :
    eigSet (A + c • 1) = (fun t => t + c) '' eigSet A := by
  ext t
  constructor
  · rintro ⟨x, hx, hAx⟩
    refine ⟨t - c, ⟨x, hx, ?_⟩, by ring⟩
    have h : A *ᵥ x + c • x = t • x := by
      rw [← hAx, add_mulVec, smul_mulVec_assoc, one_mulVec]
    have h2 : A *ᵥ x = t • x - c • x := by rw [← h]; abel
    rw [h2, sub_smul]
  · rintro ⟨s, ⟨x, hx, hAx⟩, rfl⟩
    refine ⟨x, hx, ?_⟩
    rw [add_mulVec, smul_mulVec_assoc, one_mulVec, hAx, ← add_smul]

lemma sSup_image_add_const (s : Set ℝ) (hne : s.Nonempty) (hbdd : BddAbove s) (c : ℝ) :
    sSup ((fun t => t + c) '' s) = sSup s + c := by
  have himbdd : BddAbove ((fun t => t + c) '' s) := by
    obtain ⟨b, hb⟩ := hbdd
    refine ⟨b + c, ?_⟩
    rintro w ⟨t, ht, rfl⟩
    exact add_le_add_right (hb ht) c
  apply le_antisymm
  · apply csSup_le (hne.image _)
    rintro w ⟨t, ht, rfl⟩
    exact add_le_add_right (le_csSup hbdd ht) c
  · have h : sSup s ≤ sSup ((fun t => t + c) '' s) - c := by
      apply csSup_le hne
      intro t ht
      have := le_csSup himbdd (Set.mem_image_of_mem _ ht)
      linarith
    linarith

lemma sInf_image_add_const (s : Set ℝ) (hne : s.Nonempty) (hbdd : BddBelow s) (c : ℝ) :
    sInf ((fun t => t + c) '' s) = sInf s + c := by
  have himbdd : BddBelow ((fun t => t + c) '' s) := by
    obtain ⟨b, hb⟩ := hbdd
    refine ⟨b + c, ?_⟩
    rintro w ⟨t, ht, rfl⟩
    exact add_le_add_right (hb ht) c
  apply le_antisymm
  · have h : sInf ((fun t => t + c) '' s) - c ≤ sInf s := by
      apply le_csInf hne
      intro t ht
      have := csInf_le himbdd (Set.mem_image_of_mem _ ht)
      linarith
    linarith
  · apply le_csInf (hne.image _)
    rintro w ⟨t, ht, rfl⟩
    exact add_le_add_right (csInf_le hbdd ht) c

lemma eigSet_nonneg_of_posSemidef {k : ℕ} {A : Matrix (Fin k) (Fin k) ℝ}
    (hA : A.PosSemidef) : ∀ t ∈ eigSet A, 0 ≤ t := by
  rintro t ⟨x, hx, hAx⟩
  have h := hA.2 x
  rw [hAx, dotProduct_smul, smul_eq_mul] at h
  have hpos : 0 < dotProduct (star x) x :=
    Matrix.dotProduct_star_self_pos_iff.mpr hx
  nlinarith

/-- C7: for every non-empty training set the mean covariance
np.mean(cs, axis=0) equals a symmetric positive semidefinite Gram mean plus
alpha times the identity, and its condition number (largest over smallest
eigenvalue) is monotonically non-increasing in the regularization constant:
alpha_1 > alpha_2 > 0 implies
cond(CbarMean S alpha_1) <= cond(CbarMean S alpha_2). -/
theorem c7_condition_number_monotone {m n : ℕ}
    (S : List (Matrix (Fin (m + 1)) (Fin n) ℝ)) (hS : S ≠ [])
    (a1 a2 : ℝ) (h21 : a2 < a1) (h2 : 0 < a2) :
    condNumber (CbarMean S a1) ≤ condNumber (CbarMean S a2) := by
  have hPSD := matMean_gram_posSemidef S
  have hHerm := hPSD.1
  set AR := matMean (S.map (fun s => s * sᵀ)) with hAR
  have hrange : eigSet AR = Set.range hHerm.eigenvalues := eigSet_eq_range hHerm
  have hne : (eigSet AR).Nonempty := by
    rw [hrange]; exact Set.range_nonempty _
  have hfin : (eigSet AR).Finite := by
    rw [hrange]; exact Set.finite_range _
  have hbddA : BddAbove (eigSet AR) := hfin.bddAbove
  have hbddB : BddBelow (eigSet AR) := hfin.bddBelow
  have hmM : sInf (eigSet AR) ≤ sSup (eigSet AR) := csInf_le_csSup hbddB hbddA hne
  have hm0 : 0 ≤ sInf (eigSet AR) :=
    le_csInf hne (eigSet_nonneg_of_posSemidef hPSD)
  have hcond : ∀ c : ℝ, condNumber (CbarMean S c) =
      (sSup (eigSet AR) + c) / (sInf (eigSet AR) + c) := by
    intro c
    rw [CbarMean_eq_gram_add S c hS, condNumber, ← hAR, eigSet_add_smul_one,
      sSup_image_add_const _ hne hbddA, sInf_image_add_const _ hne hbddB]
  rw [hcond a1, hcond a2]
  have d2 : 0 < sInf (eigSet AR) + a2 := by linarith
  have d1 : 0 < sInf (eigSet AR) + a1 := by linarith
  rw [div_le_div_iff₀ d1 d2]
  nlinarith [mul_nonneg (sub_nonneg.mpr hmM) (sub_nonneg.mpr h21.le)]

/-- C7 witness: the monotonicity statement evaluated on the singleton
training set containing the 1x1 identity signal, with alpha_1 = 2 and
alpha_2 = 1. -/
theorem c7_condition_number_monotone_witness :
    (([(1 : Matrix (Fin (0 + 1)) (Fin 1) ℝ)] : List (Matrix (Fin (0 + 1)) (Fin 1) ℝ)) ≠ [] ∧
      (1 : ℝ) < 2 ∧ (0 : ℝ) < 1) ∧
    condNumber (CbarMean [(1 : Matrix (Fin (0 + 1)) (Fin 1) ℝ)] 2) ≤
      condNumber (CbarMean [(1 : Matrix (Fin (0 + 1)) (Fin 1) ℝ)] 1) :=
  ⟨⟨by simp, one_lt_two, one_pos⟩,
    c7_condition_number_monotone [(1 : Matrix (Fin (0 + 1)) (Fin 1) ℝ)] (by simp)
      2 1 one_lt_two one_pos⟩
